import Mathlib

/-!
A verification development for the model-composition core of the `brim`
multibody-modelling framework.  The composition core (model nodes with named
slots, five-stage build lifecycle, tree-scoped symbol registry, exporter and
parametrization resolver) is embedded shallowly below and its documented
properties are proved.
-/

namespace Brim

/-- Modelled from the spec: the `state` field of a node — one of the six
lifecycle states of §3, ordered by `Stage.idx`.  The staged lifecycle code
itself is not in the repository snapshot (only docs/CI are), so it is
reconstructed from §4.3 of the spec. -/
inductive Stage where
  | Unbuilt
  | ConnectionsDefined
  | ObjectsDefined
  | KinematicsDefined
  | LoadsDefined
  | ConstraintsDefined
deriving DecidableEq

/-- Numeric position of a lifecycle state in the strict total order of §4.3. -/
def Stage.idx : Stage → Nat
  | .Unbuilt => 0
  | .ConnectionsDefined => 1
  | .ObjectsDefined => 2
  | .KinematicsDefined => 3
  | .LoadsDefined => 4
  | .ConstraintsDefined => 5

/-- Modelled from the spec: a symbolic quantity of the Symbol Registry (§4.1);
its identity is the owner's node name together with the local key, and the
description recorded at creation travels with it. -/
structure Sym where
  owner : String
  key : String
  descr : String
deriving DecidableEq

/-- Modelled from the spec: the structural role of a connection — a pin joint
contributes one generalized coordinate/speed/kinematic equation, a loop-closing
connection contributes two planar holonomic constraints (§4.4, tutorial). -/
inductive ConnKind where
  | pin
  | closing
deriving DecidableEq

/-- Modelled from the spec: a Connection (§3) hosted on a node; `refs` are the
names of the host's slots it references (a uses-relation, no ownership). -/
structure Conn where
  name : String
  kind : ConnKind
  refs : List String
deriving DecidableEq

/-- Modelled from the spec: the structured error taxonomy of §7. -/
inductive Err where
  | NameCollisionError
  | ConstraintViolation
  | OrderingError
  | SymbolLookupError
  | PartitionError
deriving DecidableEq

mutual
/-- Modelled from the spec: a Model Node (§3) — name, hosted connections,
the local symbol keys its objects stage creates, lifecycle `state`, the
per-node symbol registry, and the filled slots in declaration order. -/
inductive MNode where
  | mk (name : String) (conns : List Conn) (objKeys : List String)
       (state : Stage) (symbols : List (String × Sym)) (children : Forest)
/-- The filled slots of a node, in slot declaration order. -/
inductive Forest where
  | nil
  | cons (slot : String) (child : MNode) (rest : Forest)
end

def MNode.name : MNode → String
  | .mk n _ _ _ _ _ => n

def MNode.conns : MNode → List Conn
  | .mk _ co _ _ _ _ => co

def MNode.objKeys : MNode → List String
  | .mk _ _ k _ _ _ => k

def MNode.state : MNode → Stage
  | .mk _ _ _ st _ _ => st

def MNode.symbols : MNode → List (String × Sym)
  | .mk _ _ _ _ sy _ => sy

def MNode.children : MNode → Forest
  | .mk _ _ _ _ _ ch => ch

mutual
/-- All node names occurring in a tree (root first, depth-first). -/
def allNames : MNode → List String
  | .mk n _ _ _ _ ch => n :: allNamesF ch

def allNamesF : Forest → List String
  | .nil => []
  | .cons _ c r => allNames c ++ allNamesF r
end

mutual
/-- All lifecycle states occurring in a tree (root first, depth-first). -/
def allStates : MNode → List Stage
  | .mk _ _ _ st _ ch => st :: allStatesF ch

def allStatesF : Forest → List Stage
  | .nil => []
  | .cons _ c r => allStates c ++ allStatesF r
end

mutual
/-- All nodes of a tree (root first, depth-first over slots in declaration
order — the deterministic traversal order of §4.3). -/
def allNodesL : MNode → List MNode
  | .mk n co k st sy ch => .mk n co k st sy ch :: allNodesF ch

def allNodesF : Forest → List MNode
  | .nil => []
  | .cons _ c r => allNodesL c ++ allNodesF r
end

/-- Names of the filled slots of a node, in declaration order. -/
def slotNamesF : Forest → List String
  | .nil => []
  | .cons s _ r => s :: slotNamesF r

mutual
/-- Every node of the tree is in lifecycle state `s` (stages run tree-wide). -/
def uniformB (s : Stage) : MNode → Bool
  | .mk _ _ _ st _ ch => (st == s) && uniformBF s ch

def uniformBF (s : Stage) : Forest → Bool
  | .nil => true
  | .cons _ c r => uniformB s c && uniformBF s r
end

/-- Modelled from the spec: `get_symbol` of the Symbol Registry (§4.1) — looks
the key up in the owner's registry; a hit returns the cached symbol and leaves
the registry untouched, a miss creates the symbol (visible name synthesized
from owner name and key) and appends it.  Registry entries are append-only. -/
def regGet (owner key descr : String) (reg : List (String × Sym)) :
    Sym × List (String × Sym) :=
  match reg.find? (fun e => e.1 == key) with
  | some e => (e.2, reg)
  | none => (⟨owner, key, descr⟩, reg ++ [(key, ⟨owner, key, descr⟩)])

/-- Create the node's object-stage symbols through the registry, one `regGet`
per declared key, left to right. -/
def createSyms (owner : String) (keys : List String)
    (reg : List (String × Sym)) : List (String × Sym) :=
  match keys with
  | [] => reg
  | k :: rest => createSyms owner rest (regGet owner k k reg).2

/-- A connection's referenced slots are all assigned on its host (§3, §4.3:
`define_connections` fails if a connection references an unassigned slot). -/
def checkConns (conns : List Conn) (slots : List String) : Bool :=
  conns.all (fun c => c.refs.all (fun r => decide (r ∈ slots)))

/-- Modelled from the spec: the per-node work of one lifecycle stage (§4.3):
`define_connections` validates the hosted connections' slot references,
`define_objects` creates the node's symbols through the registry, the
remaining stages delegate to the external algebra backend and keep the
registry unchanged. -/
def nodeAction (tgt : Stage) (n : String) (co : List Conn) (k : List String)
    (sy : List (String × Sym)) (slots : List String) :
    Except Err (List (String × Sym)) :=
  match tgt with
  | .ConnectionsDefined =>
      if checkConns co slots then .ok sy else .error .ConstraintViolation
  | .ObjectsDefined => .ok (createSyms n k sy)
  | .Unbuilt => .ok sy
  | .KinematicsDefined => .ok sy
  | .LoadsDefined => .ok sy
  | .ConstraintsDefined => .ok sy

mutual
/-- Modelled from the spec: the Lifecycle Controller's dispatch of one stage
over a tree (§4.3), depth-first over slots in declaration order.  A node
already at or past the target state is a no-op guarded by `state`
(idempotent); a node exactly one state behind performs the stage and
advances; a node further behind raises `OrderingError`. -/
def runStage (tgt : Stage) : MNode → Except Err MNode
  | .mk n co k st sy ch =>
    if tgt.idx ≤ st.idx then
      (runStageF tgt ch).map (fun ch' => .mk n co k st sy ch')
    else if st.idx + 1 = tgt.idx then
      match nodeAction tgt n co k sy (slotNamesF ch) with
      | .ok sy' => (runStageF tgt ch).map (fun ch' => .mk n co k tgt sy' ch')
      | .error e => .error e
    else
      .error .OrderingError

def runStageF : Stage → Forest → Except Err Forest
  | _, .nil => .ok .nil
  | tgt, .cons s c r =>
    match runStage tgt c with
    | .ok c' => (runStageF tgt r).map (fun r' => .cons s c' r')
    | .error e => .error e
end

/-- Modelled from the spec: the convenience "run all five stages in order"
operation (§4.3) — pure sequential dispatch, no further semantics. -/
def runAll (t : MNode) : Except Err MNode := do
  let t1 ← runStage .ConnectionsDefined t
  let t2 ← runStage .ObjectsDefined t1
  let t3 ← runStage .KinematicsDefined t2
  let t4 ← runStage .LoadsDefined t3
  runStage .ConstraintsDefined t4

/-- Append a newly filled slot after the existing ones (declaration order). -/
def appendSlotF : Forest → String → MNode → Forest
  | .nil, s, c => .cons s c .nil
  | .cons s0 c0 r, s, c => .cons s0 c0 (appendSlotF r s c)

mutual
/-- Insert `child` into slot `slot` of the first node named `target`
(depth-first); fails if `target` is absent or the slot is already filled
(assignment is write-once for single-cardinality slots, §3 invariant 3). -/
def insertChild (target slot : String) (child : MNode) : MNode → Option MNode
  | .mk n co k st sy ch =>
    if n = target then
      if decide (slot ∈ slotNamesF ch) then none
      else some (.mk n co k st sy (appendSlotF ch slot child))
    else
      (insertChildF target slot child ch).map (fun ch' => .mk n co k st sy ch')

def insertChildF (target slot : String) (child : MNode) : Forest → Option Forest
  | .nil => none
  | .cons s c r =>
    match insertChild target slot child c with
    | some c' => some (.cons s c' r)
    | none => (insertChildF target slot child r).map (fun r' => .cons s c r')
end

/-- Modelled from the spec: `assign` of the Model Node slot system (§4.2) with
the tree-wide name table of §9.  Name uniqueness is enforced at assignment
time, before anything else (fail fast, §3 invariant 1); the assignment is then
refused unless the whole tree and the child are still `Unbuilt`, and unless
the target slot exists and is free. -/
def assign (root : MNode) (target slot : String) (child : MNode) :
    Except Err MNode :=
  if (allNames child).any (fun m => decide (m ∈ allNames root)) then
    .error .NameCollisionError
  else if !(uniformB .Unbuilt root && uniformB .Unbuilt child) then
    .error .ConstraintViolation
  else
    match insertChild target slot child root with
    | some t => .ok t
    | none => .error .ConstraintViolation

/-- Generalized coordinates contributed by one connection: a pin joint yields
one, named from the host and the joint (deterministic synthesis). -/
def connCoords (owner : String) (c : Conn) : List Sym :=
  match c.kind with
  | .pin => [⟨owner, "q_" ++ c.name, "generalized coordinate"⟩]
  | .closing => []

/-- Generalized speeds contributed by one connection. -/
def connSpeeds (owner : String) (c : Conn) : List Sym :=
  match c.kind with
  | .pin => [⟨owner, "u_" ++ c.name, "generalized speed"⟩]
  | .closing => []

/-- Holonomic constraints contributed by one connection: a loop-closing
connection closes the loop in two planar directions. -/
def connConstraints (c : Conn) : List String :=
  match c.kind with
  | .pin => []
  | .closing => [c.name ++ "_x", c.name ++ "_y"]

mutual
/-- Ordered generalized coordinates of a tree, depth-first over slots in
declaration order (§4.3 traversal order). -/
def collectCoords : MNode → List Sym
  | .mk n co _ _ _ ch => co.flatMap (connCoords n) ++ collectCoordsF ch

def collectCoordsF : Forest → List Sym
  | .nil => []
  | .cons _ c r => collectCoords c ++ collectCoordsF r
end

mutual
/-- Ordered generalized speeds of a tree, same traversal order. -/
def collectSpeeds : MNode → List Sym
  | .mk n co _ _ _ ch => co.flatMap (connSpeeds n) ++ collectSpeedsF ch

def collectSpeedsF : Forest → List Sym
  | .nil => []
  | .cons _ c r => collectSpeeds c ++ collectSpeedsF r
end

mutual
/-- Ordered kinematic differential equations: one pairing per declared
coordinate/speed pair (§6: every coordinate has exactly one paired kde). -/
def collectKdes : MNode → List (Sym × Sym)
  | .mk n co _ _ _ ch =>
      co.flatMap (fun c => (connCoords n c).zip (connSpeeds n c)) ++
      collectKdesF ch

def collectKdesF : Forest → List (Sym × Sym)
  | .nil => []
  | .cons _ c r => collectKdes c ++ collectKdesF r
end

mutual
/-- Ordered accumulated constraint list, same traversal order. -/
def collectConstraints : MNode → List String
  | .mk _ co _ _ _ ch => co.flatMap connConstraints ++ collectConstraintsF ch

def collectConstraintsF : Forest → List String
  | .nil => []
  | .cons _ c r => collectConstraints c ++ collectConstraintsF r
end

/-- The generic multibody description handed to the external dynamics engine:
ordered coordinates, speeds, kinematic differential equations and constraints
(§4.4). -/
structure SystemDesc where
  coords : List Sym
  speeds : List Sym
  kdes : List (Sym × Sym)
  constraints : List String
deriving DecidableEq

/-- Modelled from the spec: the Exporter's `to_system` (§4.4) — only after
`define_constraints` has completed tree-wide does it flatten the tree, in the
deterministic depth-first traversal order; otherwise it raises
`OrderingError` and returns nothing partial. -/
def toSystem (t : MNode) : Except Err SystemDesc :=
  if uniformB .ConstraintsDefined t then
    .ok ⟨collectCoords t, collectSpeeds t, collectKdes t, collectConstraints t⟩
  else
    .error .OrderingError

/-- Modelled from the spec: the partition-count check of §6 — the declared
independent/dependent split must cover the coordinates exactly, the dependent
count must match the constraint count, and every coordinate must have exactly
one paired speed and kinematic differential equation; otherwise
`PartitionError`. -/
def validatePartition (nInd nDep : Nat) (s : SystemDesc) : Except Err Unit :=
  if nInd + nDep = s.coords.length ∧ nDep = s.constraints.length ∧
      s.speeds.length = s.coords.length ∧ s.kdes.length = s.coords.length then
    .ok ()
  else
    .error .PartitionError

mutual
/-- Modelled from the spec: `get_all_symbols` of the Parametrization Resolver
(§4.5) — every symbol reachable from the tree through the per-node
registries, in deterministic traversal order. -/
def get_all_symbols : MNode → List Sym
  | .mk _ _ _ _ sy ch => sy.map (fun e => e.2) ++ getAllSymbolsF ch

def getAllSymbolsF : Forest → List Sym
  | .nil => []
  | .cons _ c r => get_all_symbols c ++ getAllSymbolsF r
end

/-- Modelled from the spec: `get_param_values` (§4.5) — queries the external
measured-parameter provider for every reachable symbol and keeps exactly those
the provider resolves; unresolved symbols are simply absent (never defaulted,
never guessed, no error raised). -/
def get_param_values (t : MNode) (p : Sym → Option Int) : List (Sym × Int) :=
  (get_all_symbols t).filterMap (fun s => (p s).map (fun v => (s, v)))

/-- Modelled from the spec: the "missing symbols" collection the caller must
fill — the reachable symbols with no entry in the resolved mapping (the
tutorial's `get_all_symbols().difference(constants.keys())`). -/
def missing_symbols (t : MNode) (p : Sym → Option Int) : List Sym :=
  (get_all_symbols t).filter
    (fun s => !((get_param_values t p).any (fun e => e.1 == s)))

/-- One registry is the other extended at the end: entries are never removed,
reordered or replaced. -/
def regExtends (old new : List (String × Sym)) : Prop :=
  ∃ tail, new = old ++ tail

mutual
/-- Structural registry preservation: same tree shape, every node's registry
extended append-only. -/
def symsLe : MNode → MNode → Prop
  | .mk n co k _ sy ch, .mk n' co' k' _ sy' ch' =>
      n = n' ∧ co = co' ∧ k = k' ∧ regExtends sy sy' ∧ symsLeF ch ch'

def symsLeF : Forest → Forest → Prop
  | .nil, .nil => True
  | .cons s c r, .cons s' c' r' => s = s' ∧ symsLe c c' ∧ symsLeF r r'
  | .nil, .cons _ _ _ => False
  | .cons _ _ _, .nil => False
end

/-- A list of keys with no duplicates. -/
def nodupKeys : List String → Bool
  | [] => true
  | k :: r => !(decide (k ∈ r)) && nodupKeys r

mutual
/-- Every node's registry is still empty (no stage has created symbols). -/
def emptyRegsB : MNode → Bool
  | .mk _ _ _ _ sy ch => sy.isEmpty && emptyRegsBF ch

def emptyRegsBF : Forest → Bool
  | .nil => true
  | .cons _ c r => emptyRegsB c && emptyRegsBF r
end

mutual
/-- Every node declares its object-stage symbol keys without duplicates. -/
def keysNodupB : MNode → Bool
  | .mk _ _ k _ _ ch => nodupKeys k && keysNodupBF ch

def keysNodupBF : Forest → Bool
  | .nil => true
  | .cons _ c r => keysNodupB c && keysNodupBF r
end

mutual
/-- The number of leaf symbols the objects stage creates for the tree. -/
def totalKeys : MNode → Nat
  | .mk _ _ k _ _ ch => k.length + totalKeysF ch

def totalKeysF : Forest → Nat
  | .nil => 0
  | .cons _ c r => totalKeys c + totalKeysF r
end

mutual
/-- Every connection in the tree references only assigned slots of its host. -/
def allConnsOkB : MNode → Bool
  | .mk _ co _ _ _ ch => checkConns co (slotNamesF ch) && allConnsOkF ch

def allConnsOkF : Forest → Bool
  | .nil => true
  | .cons _ c r => allConnsOkB c && allConnsOkF r
end

/-- A freshly instantiated leaf node: `Unbuilt`, empty registry, no slots. -/
def leaf (nm : String) (co : List Conn) (keys : List String) : MNode :=
  .mk nm co keys .Unbuilt [] .nil

/-- The fixed base of the four-bar linkage tutorial; hosts the first pin
joint, which references the slot its neighbour is assigned into. -/
def link1 : MNode := leaf "link1" [⟨"joint1", .pin, ["s2"]⟩] ["l1"]

/-- Second link of the chain, hosting the second pin joint. -/
def link2 : MNode := leaf "link2" [⟨"joint2", .pin, ["s3"]⟩] ["l2", "m2"]

/-- Third link of the chain, hosting the third pin joint. -/
def link3 : MNode := leaf "link3" [⟨"joint3", .pin, ["s4"]⟩] ["l3", "m3"]

/-- Fourth link; hosts the loop-closing connection back to the base. -/
def link4 : MNode := leaf "link4" [⟨"loop_close", .closing, []⟩] ["l4", "m4"]

/-- The four-bar linkage of the tutorial: three moving links pin-joined in a
chain to the fixed base, plus the loop-closing connection; built through
`assign`, elaborated by all five stages, then exported. -/
def fourBarSys : Except Err SystemDesc := do
  let t1 ← assign link1 "link1" "s2" link2
  let t2 ← assign t1 "link2" "s3" link3
  let t3 ← assign t2 "link3" "s4" link4
  let t4 ← runAll t3
  toSystem t4

/-- A fixed base carrying the first pin joint of the two-body chain. -/
def base0 : MNode := leaf "base" [⟨"joint1", .pin, ["s1"]⟩] ["lb"]

/-- First of the two moving bodies, hosting the second pin joint. -/
def body1 : MNode := leaf "body1" [⟨"joint2", .pin, ["s2"]⟩] ["l1b"]

/-- Second moving body; hosts the loop-closing connection. -/
def body2 : MNode := leaf "body2" [⟨"close2", .closing, []⟩] ["l2b"]

/-- The scenario exactly as §8.6 words it: two bodies each pin-joined in a
chain to a fixed base, plus one closing connection. -/
def twoBodySys : Except Err SystemDesc := do
  let t1 ← assign base0 "base" "s1" body1
  let t2 ← assign t1 "body1" "s2" body2
  let t3 ← runAll t2
  toSystem t3

/-- The exporter head-counts: coordinates, speeds, kinematic differential
equations, holonomic constraints. -/
def sysCounts (e : Except Err SystemDesc) : Except Err (Nat × Nat × Nat × Nat) :=
  e.map (fun s => (s.coords.length, s.speeds.length, s.kdes.length,
                   s.constraints.length))

mutual
theorem uniformB_allStates (s : Stage) :
    ∀ t : MNode, uniformB s t = true → ∀ x ∈ allStates t, x = s
  | .mk _n _co _k st _sy ch, h => by
    simp only [uniformB, Bool.and_eq_true, beq_iff_eq] at h
    intro x hx
    simp only [allStates, List.mem_cons] at hx
    rcases hx with rfl | hx
    · exact h.1
    · exact uniformB_allStatesF s ch h.2 x hx

theorem uniformB_allStatesF (s : Stage) :
    ∀ f : Forest, uniformBF s f = true → ∀ x ∈ allStatesF f, x = s
  | .nil, _ => by intro x hx; simp [allStatesF] at hx
  | .cons _sl c r, h => by
    simp only [uniformBF, Bool.and_eq_true] at h
    intro x hx
    simp only [allStatesF, List.mem_append] at hx
    rcases hx with hx | hx
    · exact uniformB_allStates s c h.1 x hx
    · exact uniformB_allStatesF s r h.2 x hx
end

theorem Stage.idx_le_five (s : Stage) : s.idx ≤ 5 := by
  cases s <;> simp [Stage.idx]

theorem regGet_cached (owner key d d' : String) (reg : List (String × Sym)) :
    regGet owner key d' (regGet owner key d reg).2 = regGet owner key d reg := by
  unfold regGet
  cases h : reg.find? (fun e => e.1 == key) with
  | some e => simp [h]
  | none =>
    simp only [h, List.find?_append]
    simp [List.find?]

theorem regGet_extends (owner key d : String) (reg : List (String × Sym)) :
    regExtends reg (regGet owner key d reg).2 := by
  unfold regGet
  cases h : reg.find? (fun e => e.1 == key) with
  | some e => exact ⟨[], by simp⟩
  | none => exact ⟨[(key, ⟨owner, key, d⟩)], rfl⟩

theorem regExtends_trans {a b c : List (String × Sym)} :
    regExtends a b → regExtends b c → regExtends a c := by
  rintro ⟨t1, rfl⟩ ⟨t2, rfl⟩
  exact ⟨t1 ++ t2, by simp⟩

theorem createSyms_extends (owner : String) :
    ∀ (keys : List String) (reg : List (String × Sym)),
      regExtends reg (createSyms owner keys reg)
  | [], reg => ⟨[], by simp [createSyms]⟩
  | k :: rest, reg => by
    rw [createSyms]
    exact regExtends_trans (regGet_extends owner k k reg)
      (createSyms_extends owner rest _)

theorem exceptMap_eq_ok {α β ε : Type} {g : α → β} {x : Except ε α} {b : β}
    (h : x.map g = .ok b) : ∃ a, x = .ok a ∧ b = g a := by
  cases x with
  | ok a =>
    refine ⟨a, rfl, ?_⟩
    injection h with h2
    exact h2.symm
  | error e => exact Except.noConfusion h

theorem exceptMap_eq_error {α β ε : Type} {g : α → β} {x : Except ε α} {e : ε}
    (h : x.map g = .error e) : x = .error e := by
  cases x with
  | ok a => exact Except.noConfusion h
  | error e' =>
    injection h with h2
    rw [h2]

mutual
theorem runStage_states_ge :
    ∀ (tgt : Stage) (t t' : MNode), runStage tgt t = .ok t' →
      ∀ x ∈ allStates t', tgt.idx ≤ x.idx
  | tgt, .mk n co k st sy ch, t', h => by
    rw [runStage] at h
    by_cases hle : tgt.idx ≤ st.idx
    · rw [if_pos hle] at h
      obtain ⟨ch', hch, rfl⟩ := exceptMap_eq_ok h
      intro x hx
      rw [allStates] at hx
      rcases List.mem_cons.mp hx with rfl | hx2
      · exact hle
      · exact runStage_states_geF tgt ch ch' hch x hx2
    · rw [if_neg hle] at h
      by_cases heq : st.idx + 1 = tgt.idx
      · rw [if_pos heq] at h
        cases hact : nodeAction tgt n co k sy (slotNamesF ch) with
        | ok sy' =>
          rw [hact] at h
          obtain ⟨ch', hch, rfl⟩ := exceptMap_eq_ok h
          intro x hx
          rw [allStates] at hx
          rcases List.mem_cons.mp hx with rfl | hx2
          · exact Nat.le_refl _
          · exact runStage_states_geF tgt ch ch' hch x hx2
        | error e =>
          rw [hact] at h
          exact Except.noConfusion h
      · rw [if_neg heq] at h
        exact Except.noConfusion h

theorem runStage_states_geF :
    ∀ (tgt : Stage) (f f' : Forest), runStageF tgt f = .ok f' →
      ∀ x ∈ allStatesF f', tgt.idx ≤ x.idx
  | tgt, .nil, f', h => by
    rw [runStageF] at h
    injection h with h2
    subst h2
    intro x hx
    rw [allStatesF] at hx
    exact absurd hx (List.not_mem_nil x)
  | tgt, .cons s c r, f', h => by
    rw [runStageF] at h
    cases hc : runStage tgt c with
    | ok c' =>
      rw [hc] at h
      obtain ⟨r', hr, rfl⟩ := exceptMap_eq_ok h
      intro x hx
      rw [allStatesF] at hx
      rcases List.mem_append.mp hx with hx2 | hx2
      · exact runStage_states_ge tgt c c' hc x hx2
      · exact runStage_states_geF tgt r r' hr x hx2
    | error e =>
      rw [hc] at h
      exact Except.noConfusion h
end

mutual
theorem runStage_noop :
    ∀ (tgt : Stage) (t : MNode), (∀ x ∈ allStates t, tgt.idx ≤ x.idx) →
      runStage tgt t = .ok t
  | tgt, .mk n co k st sy ch, h => by
    rw [runStage]
    have hst : tgt.idx ≤ st.idx := by
      refine h st ?_
      rw [allStates]
      exact List.mem_cons_self _ _
    rw [if_pos hst]
    have hch : runStageF tgt ch = .ok ch := by
      refine runStage_noopF tgt ch ?_
      intro x hx
      refine h x ?_
      rw [allStates]
      exact List.mem_cons_of_mem _ hx
    rw [hch]
    rfl

theorem runStage_noopF :
    ∀ (tgt : Stage) (f : Forest), (∀ x ∈ allStatesF f, tgt.idx ≤ x.idx) →
      runStageF tgt f = .ok f
  | tgt, .nil, _ => by rw [runStageF]
  | tgt, .cons s c r, h => by
    rw [runStageF]
    have hc : runStage tgt c = .ok c := by
      refine runStage_noop tgt c ?_
      intro x hx
      refine h x ?_
      rw [allStatesF]
      exact List.mem_append_left _ hx
    have hr : runStageF tgt r = .ok r := by
      refine runStage_noopF tgt r ?_
      intro x hx
      refine h x ?_
      rw [allStatesF]
      exact List.mem_append_right _ hx
    rw [hc, hr]
    rfl
end

theorem nodeAction_ok_of_two (tgt : Stage) (h2 : 2 ≤ tgt.idx)
    (n : String) (co : List Conn) (k : List String)
    (sy : List (String × Sym)) (slots : List String) :
    ∃ sy', nodeAction tgt n co k sy slots = .ok sy' := by
  cases tgt
  · simp [Stage.idx] at h2
  · simp [Stage.idx] at h2
  · exact ⟨_, rfl⟩
  · exact ⟨_, rfl⟩
  · exact ⟨_, rfl⟩
  · exact ⟨_, rfl⟩

mutual
theorem runStage_error_ordering :
    ∀ (tgt : Stage) (t : MNode) (e : Err), 2 ≤ tgt.idx →
      runStage tgt t = .error e → e = .OrderingError
  | tgt, .mk n co k st sy ch, e, h2, h => by
    rw [runStage] at h
    by_cases hle : tgt.idx ≤ st.idx
    · rw [if_pos hle] at h
      exact runStage_error_orderingF tgt ch e h2 (exceptMap_eq_error h)
    · rw [if_neg hle] at h
      by_cases heq : st.idx + 1 = tgt.idx
      · rw [if_pos heq] at h
        obtain ⟨sy', hact⟩ :=
          nodeAction_ok_of_two tgt h2 n co k sy (slotNamesF ch)
        rw [hact] at h
        exact runStage_error_orderingF tgt ch e h2 (exceptMap_eq_error h)
      · rw [if_neg heq] at h
        injection h with h3
        exact h3.symm

theorem runStage_error_orderingF :
    ∀ (tgt : Stage) (f : Forest) (e : Err), 2 ≤ tgt.idx →
      runStageF tgt f = .error e → e = .OrderingError
  | tgt, .nil, e, _, h => by
    rw [runStageF] at h
    exact Except.noConfusion h
  | tgt, .cons s c r, e, h2, h => by
    rw [runStageF] at h
    cases hc : runStage tgt c with
    | ok c' =>
      rw [hc] at h
      exact runStage_error_orderingF tgt r e h2 (exceptMap_eq_error h)
    | error e' =>
      rw [hc] at h
      injection h with h3
      subst h3
      exact runStage_error_ordering tgt c e' h2 hc
end

mutual
theorem runStage_ok_no_lag :
    ∀ (tgt : Stage) (t t' : MNode), runStage tgt t = .ok t' →
      ∀ x ∈ allStates t, tgt.idx ≤ x.idx + 1
  | tgt, .mk n co k st sy ch, t', h => by
    rw [runStage] at h
    by_cases hle : tgt.idx ≤ st.idx
    · rw [if_pos hle] at h
      obtain ⟨ch', hch, _⟩ := exceptMap_eq_ok h
      intro x hx
      rw [allStates] at hx
      rcases List.mem_cons.mp hx with rfl | hx2
      · exact Nat.le_trans hle (Nat.le_succ _)
      · exact runStage_ok_no_lagF tgt ch ch' hch x hx2
    · rw [if_neg hle] at h
      by_cases heq : st.idx + 1 = tgt.idx
      · rw [if_pos heq] at h
        cases hact : nodeAction tgt n co k sy (slotNamesF ch) with
        | ok sy' =>
          rw [hact] at h
          obtain ⟨ch', hch, _⟩ := exceptMap_eq_ok h
          intro x hx
          rw [allStates] at hx
          rcases List.mem_cons.mp hx with rfl | hx2
          · exact Nat.le_of_eq heq.symm
          · exact runStage_ok_no_lagF tgt ch ch' hch x hx2
        | error e =>
          rw [hact] at h
          exact Except.noConfusion h
      · rw [if_neg heq] at h
        exact Except.noConfusion h

theorem runStage_ok_no_lagF :
    ∀ (tgt : Stage) (f f' : Forest), runStageF tgt f = .ok f' →
      ∀ x ∈ allStatesF f, tgt.idx ≤ x.idx + 1
  | tgt, .nil, f', _ => by
    intro x hx
    rw [allStatesF] at hx
    exact absurd hx (List.not_mem_nil x)
  | tgt, .cons s c r, f', h => by
    rw [runStageF] at h
    cases hc : runStage tgt c with
    | ok c' =>
      rw [hc] at h
      obtain ⟨r', hr, _⟩ := exceptMap_eq_ok h
      intro x hx
      rw [allStatesF] at hx
      rcases List.mem_append.mp hx with hx2 | hx2
      · exact runStage_ok_no_lag tgt c c' hc x hx2
      · exact runStage_ok_no_lagF tgt r r' hr x hx2
    | error e =>
      rw [hc] at h
      exact Except.noConfusion h
end

mutual
theorem connStage_error_cv :
    ∀ (t : MNode) (e : Err), uniformB .Unbuilt t = true →
      runStage .ConnectionsDefined t = .error e → e = .ConstraintViolation
  | .mk n co k st sy ch, e, hu, h => by
    rw [uniformB, Bool.and_eq_true, beq_iff_eq] at hu
    obtain ⟨rfl, huf⟩ := hu
    rw [runStage] at h
    rw [if_neg (by simp [Stage.idx]), if_pos (by simp [Stage.idx])] at h
    rw [nodeAction] at h
    by_cases hcc : checkConns co (slotNamesF ch)
    · rw [if_pos hcc] at h
      exact connStage_error_cvF ch e huf (exceptMap_eq_error h)
    · rw [if_neg hcc] at h
      injection h with h3
      exact h3.symm

theorem connStage_error_cvF :
    ∀ (f : Forest) (e : Err), uniformBF .Unbuilt f = true →
      runStageF .ConnectionsDefined f = .error e → e = .ConstraintViolation
  | .nil, e, _, h => by
    rw [runStageF] at h
    exact Except.noConfusion h
  | .cons s c r, e, hu, h => by
    rw [uniformBF, Bool.and_eq_true] at hu
    rw [runStageF] at h
    cases hc : runStage .ConnectionsDefined c with
    | ok c' =>
      rw [hc] at h
      exact connStage_error_cvF r e hu.2 (exceptMap_eq_error h)
    | error e' =>
      rw [hc] at h
      injection h with h3
      subst h3
      exact connStage_error_cv c e' hu.1 hc
end

mutual
theorem connStage_ok_allOk :
    ∀ (t t' : MNode), uniformB .Unbuilt t = true →
      runStage .ConnectionsDefined t = .ok t' → allConnsOkB t = true
  | .mk n co k st sy ch, t', hu, h => by
    rw [uniformB, Bool.and_eq_true, beq_iff_eq] at hu
    obtain ⟨rfl, huf⟩ := hu
    rw [runStage] at h
    rw [if_neg (by simp [Stage.idx]), if_pos (by simp [Stage.idx])] at h
    rw [nodeAction] at h
    by_cases hcc : checkConns co (slotNamesF ch)
    · rw [if_pos hcc] at h
      obtain ⟨ch', hch, _⟩ := exceptMap_eq_ok h
      rw [allConnsOkB, Bool.and_eq_true]
      exact ⟨hcc, connStage_ok_allOkF ch ch' huf hch⟩
    · rw [if_neg hcc] at h
      exact Except.noConfusion h

theorem connStage_ok_allOkF :
    ∀ (f f' : Forest), uniformBF .Unbuilt f = true →
      runStageF .ConnectionsDefined f = .ok f' → allConnsOkF f = true
  | .nil, f', _, _ => by rw [allConnsOkF]
  | .cons s c r, f', hu, h => by
    rw [uniformBF, Bool.and_eq_true] at hu
    rw [runStageF] at h
    cases hc : runStage .ConnectionsDefined c with
    | ok c' =>
      rw [hc] at h
      obtain ⟨r', hr, _⟩ := exceptMap_eq_ok h
      rw [allConnsOkF, Bool.and_eq_true]
      exact ⟨connStage_ok_allOk c c' hu.1 hc, connStage_ok_allOkF r r' hu.2 hr⟩
    | error e =>
      rw [hc] at h
      exact Except.noConfusion h
end

mutual
theorem allConnsOk_member :
    ∀ t : MNode, allConnsOkB t = true →
      ∀ nd ∈ allNodesL t, checkConns nd.conns (slotNamesF nd.children) = true
  | .mk n co k st sy ch, h => by
    rw [allConnsOkB, Bool.and_eq_true] at h
    intro nd hnd
    rw [allNodesL] at hnd
    rcases List.mem_cons.mp hnd with rfl | hnd2
    · exact h.1
    · exact allConnsOk_memberF ch h.2 nd hnd2

theorem allConnsOk_memberF :
    ∀ f : Forest, allConnsOkF f = true →
      ∀ nd ∈ allNodesF f, checkConns nd.conns (slotNamesF nd.children) = true
  | .nil, _ => by
    intro nd hnd
    rw [allNodesF] at hnd
    exact absurd hnd (List.not_mem_nil nd)
  | .cons s c r, h => by
    rw [allConnsOkF, Bool.and_eq_true] at h
    intro nd hnd
    rw [allNodesF] at hnd
    rcases List.mem_append.mp hnd with hnd2 | hnd2
    · exact allConnsOk_member c h.1 nd hnd2
    · exact allConnsOk_memberF r h.2 nd hnd2
end

theorem nodeAction_extends (tgt : Stage) (n : String) (co : List Conn)
    (k : List String) (sy sy' : List (String × Sym)) (slots : List String)
    (h : nodeAction tgt n co k sy slots = .ok sy') : regExtends sy sy' := by
  cases tgt <;> rw [nodeAction] at h
  case ConnectionsDefined =>
    by_cases hcc : checkConns co slots
    · rw [if_pos hcc] at h
      injection h with h2
      exact ⟨[], by rw [← h2]; simp⟩
    · rw [if_neg hcc] at h
      exact Except.noConfusion h
  case ObjectsDefined =>
    injection h with h2
    rw [← h2]
    exact createSyms_extends n k sy
  all_goals
    injection h with h2
    exact ⟨[], by rw [← h2]; simp⟩

mutual
theorem runStage_symsLe :
    ∀ (tgt : Stage) (t t' : MNode), runStage tgt t = .ok t' → symsLe t t'
  | tgt, .mk n co k st sy ch, t', h => by
    rw [runStage] at h
    by_cases hle : tgt.idx ≤ st.idx
    · rw [if_pos hle] at h
      obtain ⟨ch', hch, rfl⟩ := exceptMap_eq_ok h
      rw [symsLe]
      exact ⟨rfl, rfl, rfl, ⟨[], by simp⟩, runStage_symsLeF tgt ch ch' hch⟩
    · rw [if_neg hle] at h
      by_cases heq : st.idx + 1 = tgt.idx
      · rw [if_pos heq] at h
        cases hact : nodeAction tgt n co k sy (slotNamesF ch) with
        | ok sy' =>
          rw [hact] at h
          obtain ⟨ch', hch, rfl⟩ := exceptMap_eq_ok h
          rw [symsLe]
          exact ⟨rfl, rfl, rfl, nodeAction_extends tgt n co k sy sy' _ hact,
                 runStage_symsLeF tgt ch ch' hch⟩
        | error e =>
          rw [hact] at h
          exact Except.noConfusion h
      · rw [if_neg heq] at h
        exact Except.noConfusion h

theorem runStage_symsLeF :
    ∀ (tgt : Stage) (f f' : Forest), runStageF tgt f = .ok f' → symsLeF f f'
  | tgt, .nil, f', h => by
    rw [runStageF] at h
    injection h with h2
    subst h2
    rw [symsLeF]
    trivial
  | tgt, .cons s c r, f', h => by
    rw [runStageF] at h
    cases hc : runStage tgt c with
    | ok c' =>
      rw [hc] at h
      obtain ⟨r', hr, rfl⟩ := exceptMap_eq_ok h
      rw [symsLeF]
      exact ⟨rfl, runStage_symsLe tgt c c' hc, runStage_symsLeF tgt r r' hr⟩
    | error e =>
      rw [hc] at h
      exact Except.noConfusion h
end

theorem createSyms_len (owner : String) :
    ∀ (keys : List String) (reg : List (String × Sym)),
      nodupKeys keys = true →
      (∀ kk ∈ keys, reg.find? (fun e => e.1 == kk) = none) →
      (createSyms owner keys reg).length = reg.length + keys.length
  | [], reg, _, _ => by rw [createSyms]; simp
  | k :: rest, reg, hnd, hfr => by
    rw [nodupKeys, Bool.and_eq_true, Bool.not_eq_true'] at hnd
    have hk : reg.find? (fun e => e.1 == k) = none :=
      hfr k (List.mem_cons_self _ _)
    have hstep : (regGet owner k k reg).2 = reg ++ [(k, ⟨owner, k, k⟩)] := by
      rw [regGet, hk]
    have hfr' : ∀ kk ∈ rest,
        (reg ++ [(k, (⟨owner, k, k⟩ : Sym))]).find?
          (fun e => e.1 == kk) = none := by
      intro kk hkk
      have hne : k ≠ kk := by
        intro hEq
        subst hEq
        exact absurd hkk (by simpa using hnd.1)
      have hbe : (k == kk) = false := beq_eq_false_iff_ne.mpr hne
      rw [List.find?_append, hfr kk (List.mem_cons_of_mem _ hkk)]
      simp [List.find?, hbe]
    rw [createSyms, hstep, createSyms_len owner rest _ hnd.2 hfr']
    simp
    omega

mutual
theorem objStage_symbol_count :
    ∀ (t t' : MNode), uniformB .ConnectionsDefined t = true →
      emptyRegsB t = true → keysNodupB t = true →
      runStage .ObjectsDefined t = .ok t' →
      (get_all_symbols t').length = totalKeys t
  | .mk n co k st sy ch, t', hu, he, hn, h => by
    rw [uniformB, Bool.and_eq_true, beq_iff_eq] at hu
    obtain ⟨rfl, huf⟩ := hu
    rw [emptyRegsB, Bool.and_eq_true] at he
    obtain ⟨he1, hef⟩ := he
    have hsy : sy = [] := by
      cases sy with
      | nil => rfl
      | cons a b => exact Bool.noConfusion he1
    subst hsy
    rw [keysNodupB, Bool.and_eq_true] at hn
    rw [runStage] at h
    rw [if_neg (by simp [Stage.idx]), if_pos (by simp [Stage.idx])] at h
    rw [nodeAction] at h
    obtain ⟨ch', hch, rfl⟩ := exceptMap_eq_ok h
    rw [get_all_symbols, totalKeys, List.length_append, List.length_map]
    rw [createSyms_len n k [] hn.1 (fun kk _ => rfl)]
    rw [objStage_symbol_countF ch ch' huf hef hn.2 hch]
    simp only [List.length_nil]
    omega

theorem objStage_symbol_countF :
    ∀ (f f' : Forest), uniformBF .ConnectionsDefined f = true →
      emptyRegsBF f = true → keysNodupBF f = true →
      runStageF .ObjectsDefined f = .ok f' →
      (getAllSymbolsF f').length = totalKeysF f
  | .nil, f', _, _, _, h => by
    rw [runStageF] at h
    injection h with h2
    subst h2
    rfl
  | .cons s c r, f', hu, he, hn, h => by
    rw [uniformBF, Bool.and_eq_true] at hu
    rw [emptyRegsBF, Bool.and_eq_true] at he
    rw [keysNodupBF, Bool.and_eq_true] at hn
    rw [runStageF] at h
    cases hc : runStage .ObjectsDefined c with
    | ok c' =>
      rw [hc] at h
      obtain ⟨r', hr, rfl⟩ := exceptMap_eq_ok h
      rw [getAllSymbolsF, totalKeysF, List.length_append]
      rw [objStage_symbol_count c c' hu.1 he.1 hn.1 hc]
      rw [objStage_symbol_countF r r' hu.2 he.2 hn.2 hr]
    | error e =>
      rw [hc] at h
      exact Except.noConfusion h
end

theorem resolveAll_length (p : Sym → Option Int) :
    ∀ l : List Sym, (∀ s ∈ l, (p s).isSome = true) →
      (l.filterMap (fun s => (p s).map (fun v => (s, v)))).length = l.length
  | [], _ => rfl
  | s :: rest, h => by
    obtain ⟨v, hv⟩ := Option.isSome_iff_exists.mp (h s (List.mem_cons_self _ _))
    rw [List.filterMap_cons, hv]
    simp only [Option.map_some']
    rw [List.length_cons, List.length_cons,
        resolveAll_length p rest (fun x hx => h x (List.mem_cons_of_mem _ hx))]

theorem mem_param_values (t : MNode) (p : Sym → Option Int) (s : Sym)
    (v : Int) :
    (s, v) ∈ get_param_values t p ↔
      s ∈ get_all_symbols t ∧ p s = some v := by
  unfold get_param_values
  rw [List.mem_filterMap]
  constructor
  · rintro ⟨a, ha, hfa⟩
    rw [Option.map_eq_some'] at hfa
    obtain ⟨w, hw, hpair⟩ := hfa
    injection hpair with h1 h2
    subst h1
    subst h2
    exact ⟨ha, hw⟩
  · rintro ⟨hs, hp⟩
    exact ⟨s, hs, by rw [hp]; rfl⟩

theorem missing_empty (t : MNode) (p : Sym → Option Int)
    (h : ∀ s ∈ get_all_symbols t, (p s).isSome = true) :
    missing_symbols t p = [] := by
  unfold missing_symbols
  rw [List.filter_eq_nil_iff]
  intro s hs
  obtain ⟨v, hv⟩ := Option.isSome_iff_exists.mp (h s hs)
  have hmem : (s, v) ∈ get_param_values t p :=
    (mem_param_values t p s v).mpr ⟨hs, hv⟩
  have hany : (get_param_values t p).any (fun e => e.1 == s) = true :=
    List.any_eq_true.mpr ⟨(s, v), hmem, by simp⟩
  simp [hany]

theorem mem_missing (t : MNode) (p : Sym → Option Int) (s : Sym) :
    s ∈ missing_symbols t p ↔ s ∈ get_all_symbols t ∧ p s = none := by
  unfold missing_symbols
  rw [List.mem_filter]
  constructor
  · rintro ⟨hs, hpred⟩
    refine ⟨hs, ?_⟩
    rw [Bool.not_eq_true'] at hpred
    cases hp : p s with
    | none => rfl
    | some v =>
      exfalso
      have hmem : (s, v) ∈ get_param_values t p :=
        (mem_param_values t p s v).mpr ⟨hs, hp⟩
      have : (get_param_values t p).any (fun e => e.1 == s) = true :=
        List.any_eq_true.mpr ⟨(s, v), hmem, by simp⟩
      rw [this] at hpred
      exact Bool.noConfusion hpred
  · rintro ⟨hs, hp⟩
    refine ⟨hs, ?_⟩
    rw [Bool.not_eq_true']
    cases hb : (get_param_values t p).any (fun e => e.1 == s) with
    | false => rfl
    | true =>
      exfalso
      obtain ⟨e, he, heq⟩ := List.any_eq_true.mp hb
      obtain ⟨a, w⟩ := e
      rw [beq_iff_eq] at heq
      subst heq
      have := ((mem_param_values t p a w).mp he).2
      rw [hp] at this
      exact Option.noConfusion this

/-- C1: for every tree and every pair of distinct nodes, assigning a node
whose subtree shares any name with the tree — at any depth, into any slot —
raises `NameCollisionError` at assignment time, rather than silently aliasing
their symbols (the child is not inserted). -/
theorem claim1_name_collision (root : MNode) (target slot : String)
    (child : MNode)
    (h : ∃ m, m ∈ allNames root ∧ m ∈ allNames child) :
    assign root target slot child = .error .NameCollisionError := by
  obtain ⟨m, hr, hc⟩ := h
  unfold assign
  have hany : (allNames child).any (fun m => decide (m ∈ allNames root)) =
      true :=
    List.any_eq_true.mpr ⟨m, hc, decide_eq_true hr⟩
  rw [if_pos hany]

/-- C1 witness: a root named "a" and a fresh node also named "a" collide when
the latter is assigned into slot "s". -/
theorem claim1_witness :
    (∃ m, m ∈ allNames (leaf "a" [] []) ∧ m ∈ allNames (leaf "a" [] ["x"])) ∧
    assign (leaf "a" [] []) "a" "s" (leaf "a" [] ["x"]) =
      .error .NameCollisionError :=
  ⟨⟨"a", by simp [leaf, allNames, allNamesF],
        by simp [leaf, allNames, allNamesF]⟩,
   claim1_name_collision _ _ _ _
     ⟨"a", by simp [leaf, allNames, allNamesF],
          by simp [leaf, allNames, allNamesF]⟩⟩

/-- C2: invoking a lifecycle stage (objects or later) while some node in the
tree has not completed the predecessor stage raises `OrderingError`, and the
stage is not performed (no tree is produced). -/
theorem claim2_stage_ordering (tgt : Stage) (t : MNode)
    (h2 : 2 ≤ tgt.idx)
    (h : ∃ x ∈ allStates t, x.idx + 1 < tgt.idx) :
    runStage tgt t = .error .OrderingError := by
  obtain ⟨x, hx, hlag⟩ := h
  cases hres : runStage tgt t with
  | ok t' =>
    exact absurd (runStage_ok_no_lag tgt t t' hres x hx) (by omega)
  | error e =>
    rw [runStage_error_ordering tgt t e h2 hres]

/-- C2 witness: `define_kinematics` on a still-`Unbuilt` node (its
`define_objects` predecessor has not completed) raises `OrderingError`. -/
theorem claim2_witness :
    (2 ≤ Stage.idx .KinematicsDefined ∧
     ∃ x ∈ allStates (leaf "n" [] []), x.idx + 1 < Stage.idx .KinematicsDefined) ∧
    runStage .KinematicsDefined (leaf "n" [] []) = .error .OrderingError :=
  ⟨⟨by simp [Stage.idx],
    ⟨.Unbuilt, by simp [leaf, allStates, allStatesF], by simp [Stage.idx]⟩⟩,
   claim2_stage_ordering _ _ (by simp [Stage.idx])
     ⟨.Unbuilt, by simp [leaf, allStates, allStatesF], by simp [Stage.idx]⟩⟩

/-- C3: running the same stage a second time is a no-op — the elaborated tree
is returned unchanged, nothing is re-derived — and re-requesting a symbol for
the same (node, key) pair hands back the identical cached registry entry
(same symbol, registry untouched), never a fresh one. -/
theorem claim3_stage_idempotent (tgt : Stage) (t t' : MNode)
    (owner key d d' : String) (reg : List (String × Sym))
    (h : runStage tgt t = .ok t') :
    runStage tgt t' = .ok t' ∧
    regGet owner key d' (regGet owner key d reg).2 = regGet owner key d reg :=
  ⟨runStage_noop tgt t' (runStage_states_ge tgt t t' h),
   regGet_cached owner key d d' reg⟩

/-- C3 witness: the objects stage runs once on a one-node tree, and a second
invocation returns the very same tree; a second `regGet` for key "x" returns
the cached symbol and registry. -/
theorem claim3_witness :
    runStage .ObjectsDefined
        (MNode.mk "a" [] ["x"] .ConnectionsDefined [] .nil) =
      .ok (MNode.mk "a" [] ["x"] .ObjectsDefined
            [("x", ⟨"a", "x", "x"⟩)] .nil) ∧
    (runStage .ObjectsDefined
        (MNode.mk "a" [] ["x"] .ObjectsDefined
          [("x", ⟨"a", "x", "x"⟩)] .nil) =
      .ok (MNode.mk "a" [] ["x"] .ObjectsDefined
            [("x", ⟨"a", "x", "x"⟩)] .nil) ∧
     regGet "a" "x" "x" (regGet "a" "x" "d" []).2 = regGet "a" "x" "d" []) :=
  ⟨rfl, claim3_stage_idempotent .ObjectsDefined
    (MNode.mk "a" [] ["x"] .ConnectionsDefined [] .nil)
    (MNode.mk "a" [] ["x"] .ObjectsDefined [("x", ⟨"a", "x", "x"⟩)] .nil)
    "a" "x" "d" "x" [] rfl⟩

/-- C4: every stage run is append-only on every node's symbol registry (an
entry, once created, is never removed or replaced, and tree structure is
preserved), and a fully elaborated tree is immutable — any further stage run
returns it unchanged. -/
theorem claim4_registry_append_only (tgt : Stage) (t t' : MNode)
    (h : runStage tgt t = .ok t') :
    symsLe t t' ∧ (uniformB .ConstraintsDefined t = true → t' = t) := by
  refine ⟨runStage_symsLe tgt t t' h, ?_⟩
  intro hu
  have hall : ∀ x ∈ allStates t, tgt.idx ≤ x.idx := by
    intro x hx
    rw [uniformB_allStates .ConstraintsDefined t hu x hx]
    exact Stage.idx_le_five tgt
  have hnoop := runStage_noop tgt t hall
  rw [hnoop] at h
  injection h with h2
  exact h2.symm

/-- C4 witness: the objects stage on a one-node tree extends the registry
append-only. -/
theorem claim4_witness :
    runStage .ObjectsDefined
        (MNode.mk "b" [] ["y"] .ConnectionsDefined [] .nil) =
      .ok (MNode.mk "b" [] ["y"] .ObjectsDefined
            [("y", ⟨"b", "y", "y"⟩)] .nil) ∧
    (symsLe (MNode.mk "b" [] ["y"] .ConnectionsDefined [] .nil)
        (MNode.mk "b" [] ["y"] .ObjectsDefined
          [("y", ⟨"b", "y", "y"⟩)] .nil) ∧
     (uniformB .ConstraintsDefined
         (MNode.mk "b" [] ["y"] .ConnectionsDefined [] .nil) = true →
       MNode.mk "b" [] ["y"] .ObjectsDefined [("y", ⟨"b", "y", "y"⟩)] .nil =
       MNode.mk "b" [] ["y"] .ConnectionsDefined [] .nil)) :=
  ⟨rfl, claim4_registry_append_only .ObjectsDefined
    (MNode.mk "b" [] ["y"] .ConnectionsDefined [] .nil)
    (MNode.mk "b" [] ["y"] .ObjectsDefined [("y", ⟨"b", "y", "y"⟩)] .nil) rfl⟩

/-- C5: the exporter is deterministic — two invocations of `to_system` on the
same fully elaborated tree yield identical ordered coordinate, speed,
kinematic-equation and constraint lists (list equality, element for element),
the traversal being the deterministic depth-first order over slots. -/
theorem claim5_exporter_deterministic (t : MNode) (s1 s2 : SystemDesc)
    (h1 : toSystem t = .ok s1) (h2 : toSystem t = .ok s2) :
    s1.coords = s2.coords ∧ s1.speeds = s2.speeds ∧
    s1.kdes = s2.kdes ∧ s1.constraints = s2.constraints := by
  rw [h1] at h2
  injection h2 with h3
  subst h3
  exact ⟨rfl, rfl, rfl, rfl⟩

/-- C5 witness: two exports of the same elaborated one-node tree agree on all
four ordered lists. -/
theorem claim5_witness :
    toSystem (MNode.mk "c" [] [] .ConstraintsDefined [] .nil) =
      .ok (⟨[], [], [], []⟩ : SystemDesc) ∧
    ((⟨[], [], [], []⟩ : SystemDesc).coords =
        (⟨[], [], [], []⟩ : SystemDesc).coords ∧
     (⟨[], [], [], []⟩ : SystemDesc).speeds =
        (⟨[], [], [], []⟩ : SystemDesc).speeds ∧
     (⟨[], [], [], []⟩ : SystemDesc).kdes =
        (⟨[], [], [], []⟩ : SystemDesc).kdes ∧
     (⟨[], [], [], []⟩ : SystemDesc).constraints =
        (⟨[], [], [], []⟩ : SystemDesc).constraints) :=
  ⟨rfl, claim5_exporter_deterministic
    (MNode.mk "c" [] [] .ConstraintsDefined [] .nil)
    ⟨[], [], [], []⟩ ⟨[], [], [], []⟩ rfl rfl⟩

/-- C6 counterexample: the scenario exactly as the claim words it — two
bodies, each pin-joined by one connection in a chain to a fixed base, plus
one closing connection — exports 2 generalized coordinates, 2 speeds and 2
kinematic differential equations (not 3), and partitioning 1 coordinate/speed
as independent and 2 as dependent raises `PartitionError` instead of passing. -/
theorem claim6_two_body_counterexample :
    sysCounts twoBodySys = .ok (2, 2, 2, 2) ∧
    (twoBodySys >>= validatePartition 1 2) = .error .PartitionError :=
  ⟨rfl, rfl⟩

/-- C6 as amended: with three moving bodies pin-joined in a chain to the
fixed base (the tutorial's four-bar linkage) plus the closing connection, the
exporter reports exactly 3 generalized coordinates, 3 generalized speeds,
3 kinematic differential equations and 2 holonomic constraints, and the
(1 independent, 2 dependent) partition passes the count check with no
`PartitionError`. -/
theorem claim6_four_bar_amended :
    sysCounts fourBarSys = .ok (3, 3, 3, 2) ∧
    (fourBarSys >>= validatePartition 1 2) = .ok () :=
  ⟨rfl, rfl⟩

/-- C7: calling `to_system` before `define_constraints` has completed
tree-wide raises `OrderingError`; no partial system description is returned. -/
theorem claim7_export_requires_constraints (t : MNode)
    (h : ∃ x ∈ allStates t, x ≠ .ConstraintsDefined) :
    toSystem t = .error .OrderingError := by
  obtain ⟨x, hx, hne⟩ := h
  unfold toSystem
  have hu : uniformB .ConstraintsDefined t = false := by
    cases hb : uniformB .ConstraintsDefined t with
    | false => rfl
    | true => exact absurd (uniformB_allStates _ t hb x hx) hne
  rw [if_neg (by rw [hu]; simp)]

/-- C7 witness: exporting a tree still `Unbuilt` raises `OrderingError`. -/
theorem claim7_witness :
    (∃ x ∈ allStates (leaf "z" [] []), x ≠ .ConstraintsDefined) ∧
    toSystem (leaf "z" [] []) = .error .OrderingError :=
  ⟨⟨.Unbuilt, by simp [leaf, allStates, allStatesF], by simp⟩,
   claim7_export_requires_constraints _
     ⟨.Unbuilt, by simp [leaf, allStates, allStatesF], by simp⟩⟩

/-- C8: activating a connection in the connections stage while some slot it
references is still unassigned raises `ConstraintViolation`. -/
theorem claim8_connection_unassigned (t : MNode)
    (hu : uniformB .Unbuilt t = true)
    (h : ∃ nd ∈ allNodesL t, ∃ c ∈ MNode.conns nd, ∃ r ∈ c.refs,
          r ∉ slotNamesF (MNode.children nd)) :
    runStage .ConnectionsDefined t = .error .ConstraintViolation := by
  obtain ⟨nd, hnd, c, hc, r, hr, hrs⟩ := h
  cases hres : runStage .ConnectionsDefined t with
  | ok t' =>
    exfalso
    have hok := connStage_ok_allOk t t' hu hres
    have hcc := allConnsOk_member t hok nd hnd
    rw [checkConns, List.all_eq_true] at hcc
    have hc2 := hcc c hc
    rw [List.all_eq_true] at hc2
    exact hrs (of_decide_eq_true (hc2 r hr))
  | error e =>
    rw [connStage_error_cv t e hu hres]

/-- C8 witness: a node hosting a pin joint that references the unassigned
slot "s" fails the connections stage with `ConstraintViolation`. -/
theorem claim8_witness :
    (uniformB .Unbuilt (leaf "w" [⟨"j", .pin, ["s"]⟩] []) = true ∧
     ∃ nd ∈ allNodesL (leaf "w" [⟨"j", .pin, ["s"]⟩] []),
       ∃ c ∈ MNode.conns nd, ∃ r ∈ c.refs,
         r ∉ slotNamesF (MNode.children nd)) ∧
    runStage .ConnectionsDefined (leaf "w" [⟨"j", .pin, ["s"]⟩] []) =
      .error .ConstraintViolation :=
  ⟨⟨rfl,
    ⟨leaf "w" [⟨"j", .pin, ["s"]⟩] [],
     by simp [leaf, allNodesL, allNodesF],
     ⟨"j", .pin, ["s"]⟩, by simp [leaf, MNode.conns],
     "s", by simp, by simp [leaf, MNode.children, slotNamesF]⟩⟩,
   claim8_connection_unassigned _ rfl
     ⟨leaf "w" [⟨"j", .pin, ["s"]⟩] [],
      by simp [leaf, allNodesL, allNodesF],
      ⟨"j", .pin, ["s"]⟩, by simp [leaf, MNode.conns],
      "s", by simp, by simp [leaf, MNode.children, slotNamesF]⟩⟩

/-- C9: for a tree whose objects stage creates N leaf symbols (one per
declared key, keys duplicate-free, registries initially empty),
`get_all_symbols` returns exactly N symbols, and `get_param_values` with a
provider resolving all of them returns a mapping of size N, with the
"missing symbols" difference empty. -/
theorem claim9_resolver_round_trip (t t' : MNode) (p : Sym → Option Int)
    (hu : uniformB .ConnectionsDefined t = true)
    (he : emptyRegsB t = true) (hn : keysNodupB t = true)
    (h : runStage .ObjectsDefined t = .ok t')
    (hp : ∀ s ∈ get_all_symbols t', (p s).isSome = true) :
    (get_all_symbols t').length = totalKeys t ∧
    (get_param_values t' p).length = totalKeys t ∧
    missing_symbols t' p = [] := by
  have hlen := objStage_symbol_count t t' hu he hn h
  refine ⟨hlen, ?_, missing_empty t' p hp⟩
  unfold get_param_values
  rw [resolveAll_length p (get_all_symbols t') hp]
  exact hlen

/-- C9 witness: a one-node tree creating one symbol, resolved by the constant
provider; the mapping has size 1 and nothing is missing. -/
theorem claim9_witness :
    (uniformB .ConnectionsDefined
        (MNode.mk "r1" [] ["k1"] .ConnectionsDefined [] .nil) = true ∧
     emptyRegsB (MNode.mk "r1" [] ["k1"] .ConnectionsDefined [] .nil) = true ∧
     keysNodupB (MNode.mk "r1" [] ["k1"] .ConnectionsDefined [] .nil) = true ∧
     runStage .ObjectsDefined
         (MNode.mk "r1" [] ["k1"] .ConnectionsDefined [] .nil) =
       .ok (MNode.mk "r1" [] ["k1"] .ObjectsDefined
             [("k1", ⟨"r1", "k1", "k1"⟩)] .nil)) ∧
    ((get_all_symbols (MNode.mk "r1" [] ["k1"] .ObjectsDefined
        [("k1", ⟨"r1", "k1", "k1"⟩)] .nil)).length =
      totalKeys (MNode.mk "r1" [] ["k1"] .ConnectionsDefined [] .nil) ∧
     (get_param_values (MNode.mk "r1" [] ["k1"] .ObjectsDefined
        [("k1", ⟨"r1", "k1", "k1"⟩)] .nil) (fun _ => some 1)).length =
      totalKeys (MNode.mk "r1" [] ["k1"] .ConnectionsDefined [] .nil) ∧
     missing_symbols (MNode.mk "r1" [] ["k1"] .ObjectsDefined
        [("k1", ⟨"r1", "k1", "k1"⟩)] .nil) (fun _ => some 1) = []) :=
  ⟨⟨rfl, rfl, rfl, rfl⟩,
   claim9_resolver_round_trip
     (MNode.mk "r1" [] ["k1"] .ConnectionsDefined [] .nil)
     (MNode.mk "r1" [] ["k1"] .ObjectsDefined
       [("k1", ⟨"r1", "k1", "k1"⟩)] .nil)
     (fun _ => some 1) rfl rfl rfl rfl (fun _ _ => rfl)⟩

/-- C10: a symbol the provider cannot resolve is absent from the
`get_param_values` mapping (never defaulted, never guessed, no error raised),
and surfaces exactly in the "missing symbols" collection; conversely an entry
appears in the mapping precisely for reachable symbols the provider
resolves. -/
theorem claim10_missing_not_defaulted (t : MNode) (p : Sym → Option Int)
    (s : Sym) :
    (s ∈ missing_symbols t p ↔ s ∈ get_all_symbols t ∧ p s = none) ∧
    (∀ v : Int, (s, v) ∈ get_param_values t p ↔
      s ∈ get_all_symbols t ∧ p s = some v) :=
  ⟨mem_missing t p s, fun v => mem_param_values t p s v⟩

end Brim
